import Mathlib

/-!
Shallow embedding of `groq_code_processor.py` (GreenCodeTest repository).

Strings are modelled as Lean `String`s (lists of characters); the regex
operations used by the script are translated into explicit character-list
scanners with the same leftmost, non-greedy/greedy semantics as Python's
`re` module.  Machine integers are `Nat`/`Int`; Python floats appearing in
the report bookkeeping are idealised as exact rationals.  Fallible Python
code (exceptions) is modelled with `Option`/`Except`.
-/

/-- Python `str` whitespace characters (`str.strip`, regex `\s`), ASCII fragment. -/
def isPySpace (c : Char) : Bool :=
  c = ' ' || c = '\t' || c = '\n' || c = '\r' || c = '\x0b' || c = '\x0c'

/-- `str.strip()` on a character list: drop whitespace at both ends. -/
def pyStrip (cs : List Char) : List Char :=
  ((cs.dropWhile isPySpace).reverse.dropWhile isPySpace).reverse

/-- `str.strip()` on a `String`. -/
def pyStripS (s : String) : String := ⟨pyStrip s.data⟩

/-- `a.startswith(b)` for strings. -/
def pyStartsWithStr (s pre : String) : Bool := pre.data.isPrefixOf s.data

/-- First index at which `pat` occurs in `cs`, scanning left to right
(`str.find`, returning `none` instead of `-1`); `i` is the index offset. -/
def findSubAux (pat : List Char) : List Char → Nat → Option Nat
  | cs, i =>
    if pat.isPrefixOf cs then some i
    else match cs with
      | [] => none
      | _ :: rest => findSubAux pat rest (i + 1)

/-- `cs.find(pat)` as an `Option`: index of the leftmost occurrence. -/
def findSub (cs pat : List Char) : Option Nat := findSubAux pat cs 0

/-- `pat in cs` (Python substring containment). -/
def listContains (cs pat : List Char) : Bool := (findSub cs pat).isSome

/-- The spreadsheet-formula quote character prepended by `sanitize`. -/
def quoteChar : Char := '\''

/-- `sanitize` from `log_to_csv`: prepend a quote character when the text
starts with `=`, `-`, `+` or `@` (CSV-injection neutralisation). -/
def sanitize (text : String) : String :=
  if pyStartsWithStr text "=" || pyStartsWithStr text "-" ||
     pyStartsWithStr text "+" || pyStartsWithStr text "@" then
    ⟨quoteChar :: text.data⟩
  else text

/-- Claim-side predicate: the string begins with `=`, `-`, `+` or `@`. -/
def beginsWithTrigger (s : String) : Bool :=
  match s.data with
  | [] => false
  | c :: _ => c = '=' || c = '-' || c = '+' || c = '@'

/-- Opening reasoning-block marker used by `clean_code_content`. -/
def thinkOpen : List Char := "<think>".data

/-- Closing reasoning-block marker used by `clean_code_content`. -/
def thinkClose : List Char := "</think>".data

/-- Scanner for `re.sub(r'<think>.*?</think>', '', content, flags=re.DOTALL)`:
leftmost scan; at an opening marker with a later closing marker, the
non-greedy match extends to the first closing marker and is removed, and the
scan resumes after it (as Python's `re.sub` does, without rescanning the
junction).  Fuel is structural; `removeThink` supplies enough fuel. -/
def removeThinkAux : Nat → List Char → List Char
  | 0, cs => cs
  | _ + 1, [] => []
  | f + 1, c :: rest =>
    if thinkOpen.isPrefixOf (c :: rest) then
      match findSub ((c :: rest).drop 7) thinkClose with
      | some j => removeThinkAux f (((c :: rest).drop 7).drop (j + 8))
      | none => c :: rest
    else c :: removeThinkAux f rest

/-- Removal of `<think>...</think>` regions from a character list. -/
def removeThink (cs : List Char) : List Char := removeThinkAux (cs.length + 1) cs

/-- The optional language tags of the fenced-code regex
`(?:python|java|javascript|typescript)?`, in alternation order, with the
empty tag last (the optional group is greedy). -/
def fenceTags : List (List Char) :=
  ["python".data, "java".data, "javascript".data, "typescript".data, []]

/-- Try to match the fence opener ```` ```tag\n ```` at the head of `cs`;
returns the remainder after the opener on success. -/
def matchFenceOpen (cs : List Char) : Option (List Char) :=
  if "```".data.isPrefixOf cs then
    let after := cs.drop 3
    fenceTags.findSome? (fun t =>
      if (t ++ ['\n']).isPrefixOf after then some (after.drop (t.length + 1)) else none)
  else none

/-- Scanner for
`re.findall(r'```(?:python|java|javascript|typescript)?\n(.*?)```', content, re.DOTALL)`:
leftmost scan, non-greedy capture up to the first closing ```` ``` ````,
resuming after each full match. -/
def findCodeBlocksAux : Nat → List Char → List (List Char)
  | 0, _ => []
  | _ + 1, [] => []
  | f + 1, c :: rest =>
    match matchFenceOpen (c :: rest) with
    | some body =>
      match findSub body "```".data with
      | some j => body.take j :: findCodeBlocksAux f (body.drop (j + 3))
      | none => findCodeBlocksAux f rest
    | none => findCodeBlocksAux f rest

/-- All fenced code regions of `cs`, in order. -/
def findCodeBlocks (cs : List Char) : List (List Char) :=
  findCodeBlocksAux (cs.length + 1) cs

/-- Split a character list at every newline; a list of `n` newlines yields
`n + 1` lines (the final line carries no terminator). -/
def splitLines : List Char → List (List Char)
  | [] => [[]]
  | c :: rest =>
    match splitLines rest with
    | [] => [[c]]
    | l :: ls => if c = '\n' then [] :: l :: ls else (c :: l) :: ls

/-- Rebuild the text from its lines, dropping (with its newline) every
non-final line that begins with `Here` — the semantics of
`re.sub(r'^Here(.*?)\n', '', content, flags=re.MULTILINE)`:
`^` anchors at each line start, `.` cannot cross a newline, and the global
substitution removes every matching line, while a final unterminated line
never matches. -/
def joinRemove : List (List Char) → List Char
  | [] => []
  | [l] => l
  | l :: l' :: ls =>
    (if "Here".data.isPrefixOf l then [] else l ++ ['\n']) ++ joinRemove (l' :: ls)

/-- The fallback line removal of `clean_code_content`. -/
def removeHereLines (cs : List Char) : List Char := joinRemove (splitLines cs)

/-- `clean_code_content` from the script: strip reasoning blocks, then either
join the stripped fenced code regions with a blank line (stripping the whole
result), or fall back to removing `Here...` lines and stripping. -/
def clean_code_content (content : String) : String :=
  let c1 := removeThink content.data
  let blocks := findCodeBlocks c1
  if blocks.isEmpty then ⟨pyStrip (removeHereLines c1)⟩
  else ⟨pyStrip (List.intercalate ['\n', '\n'] (blocks.map pyStrip))⟩

/-- Scanner for `re.sub(r'^[\-\*]\s*', '', text, flags=re.MULTILINE)`:
at each line start a `-` or `*` and the following whitespace (greedy `\s*`,
which may span newlines) are removed; the position after the removed
whitespace counts as a line start only when the last removed character was a
newline.  Fuel is structural; `subBullets` supplies enough fuel. -/
def subBulletsAux : Nat → Bool → List Char → List Char
  | 0, _, cs => cs
  | _ + 1, _, [] => []
  | f + 1, atStart, c :: rest =>
    if atStart && (c == '-' || c == '*') then
      let ws := rest.takeWhile isPySpace
      subBulletsAux f (ws.getLast? == some '\n') (rest.dropWhile isPySpace)
    else c :: subBulletsAux f (c == '\n') rest

/-- Leading-bullet removal on a character list (line starts include the
start of the text). -/
def subBullets (cs : List Char) : List Char := subBulletsAux (cs.length + 1) true cs

/-- `extract_section` from the script: sentinel when the start marker is
absent; otherwise slice from the end of the first start-marker occurrence to
the first subsequent end-marker occurrence (or to the end of the text),
strip the slice, then remove leading bullets per line. -/
def extract_section (content start_marker end_marker : String) : String :=
  match findSub content.data start_marker.data with
  | none => "No changes documented"
  | some i =>
    let tl := content.data.drop (i + start_marker.data.length)
    let extracted :=
      match findSub tl end_marker.data with
      | none => tl
      | some j => tl.take j
    ⟨subBullets (pyStrip extracted)⟩

/-- The claim's reading of `extract_section`, for comparison with the code:
leading bullets are stripped per line and THEN the whole result is trimmed,
so the final value is always trimmed. -/
def extract_section_claimed (content start_marker end_marker : String) : String :=
  match findSub content.data start_marker.data with
  | none => "No changes documented"
  | some i =>
    let tl := content.data.drop (i + start_marker.data.length)
    let extracted :=
      match findSub tl end_marker.data with
      | none => tl
      | some j => tl.take j
    ⟨pyStrip (subBullets extracted)⟩

/-- `tenacity.wait_exponential(multiplier, min, max)` evaluated after the
`n`-th failed attempt: `max(min_, min(multiplier * 2 ** n, max_))`. -/
def wait_exponential (multiplier mn mx n : Nat) : Nat :=
  max mn (min (multiplier * 2 ^ n) mx)

/-- The script's configured backoff: `wait_exponential(multiplier=1, min=4, max=10)`. -/
def retryWaitFor (n : Nat) : Nat := wait_exponential 1 4 10 n

/-- The `tenacity.retry` loop of `process_with_retry`: attempt number `k`,
with `n` retries remaining after the current attempt.  `call` is the oracle
giving the outcome of each attempt of the wrapped model call (any exception
retries, per `retry_if_exception_type(Exception)`).  Returns the final
outcome and the list of backoff waits performed, in order.  When the last
allowed attempt fails, the loop raises carrying that final attempt's
exception (tenacity's `RetryError` wraps the last attempt). -/
def retryLoop {E R : Type} (call : Nat → Except E R) : Nat → Nat → Except E R × List Nat
  | k, 0 => (call k, [])
  | k, n + 1 =>
    match call k with
    | .ok r => (.ok r, [])
    | .error _ =>
      let p := retryLoop call (k + 1) n
      (p.1, retryWaitFor k :: p.2)

/-- `process_with_retry`: `stop_after_attempt(5)` — at most 5 attempts total. -/
def process_with_retry {E R : Type} (call : Nat → Except E R) : Except E R × List Nat :=
  retryLoop call 1 4

/-- The `EXCLUDED_FILES` denylist from the script. -/
def EXCLUDED_FILES : List String :=
  ["GreenCodeRefiner.py", "RefinerFunction.py", "server_emissions.py",
   "track_emissions.py", "report_template.html", "details_template.html",
   "emissions_report.html", "details_report.html", "last_run_details_template.html",
   "last_run_report_template.html", "server_report.html", "AzureMarketplace.py",
   "details_server_template.html", "recommendations_template.html",
   "code_refiner.py", "recommendations_report.html", "groq_code_processor.py",
   "mul_server_emissions.py"]

/-- `os.path.basename` (POSIX separator): the component after the last `/`. -/
def basename (p : String) : String :=
  ⟨(p.data.reverse.takeWhile (fun c => !(c == '/'))).reverse⟩

/-- `should_exclude` from the script: denylisted basename, a path containing
one of the two test-suite directory names, or a basename containing `Test`
or `test`. -/
def should_exclude (file_path : String) : Bool :=
  let filename := basename file_path
  EXCLUDED_FILES.contains filename ||
  listContains file_path.data "SRC-TestSuites".data ||
  listContains file_path.data "GreenCode-TestSuites".data ||
  listContains filename.data "Test".data ||
  listContains filename.data "test".data

/-- `len(content.split('\n'))`: one more than the number of newlines. -/
def countLines (s : String) : Nat := s.data.count '\n' + 1

/-- The extension part of `os.path.splitext`: suffix from the last dot of
the basename, empty when the only dots are leading ones. -/
def extOf (p : String) : String :=
  let b := (basename p).data
  let afterLead := b.dropWhile (fun c => c == '.')
  if afterLead.contains '.' then
    ⟨'.' :: (b.reverse.takeWhile (fun c => !(c == '.'))).reverse⟩
  else ""

/-- The root part of `os.path.splitext`: the path minus its extension. -/
def splitExtRoot (p : String) : String :=
  ⟨p.data.take (p.data.length - (extOf p).data.length)⟩

/-- Output-path computation of `process_file`: mirror the path relative to
the project root under the output directory, and for test artifacts insert
the `Test` suffix before the extension.  (`os.path.relpath` is modelled for
the in-tree case, a file lying under the project root; no claim depends on
path normalisation outside that case.) -/
def computeOutputPath (project_path output_dir file_path : String)
    (is_test : Bool) : String :=
  let rel := if (project_path ++ "/").data.isPrefixOf file_path.data then
               (⟨file_path.data.drop (project_path.data.length + 1)⟩ : String)
             else file_path
  let op := output_dir ++ "/" ++ rel
  if is_test then splitExtRoot op ++ "Test" ++ extOf op else op

/-- The mutable `processing_stats` entries updated by `process_file`
(`start_time` and `historical_totals` are handled at report time). -/
structure ProcessingStats where
  total_files : Nat
  total_loc : Nat
  loc_by_type : List (String × Nat)
  file_types : List String
deriving DecidableEq

/-- Association-list lookup (Python `dict` access), first match wins. -/
def lookupA {α : Type} : List (String × α) → String → Option α
  | [], _ => none
  | (k', v) :: t, k => if k' = k then some v else lookupA t k

/-- The `loc_by_type` dict update: add to an existing key's bucket, else
append a fresh key (dict insertion order). -/
def bumpAssoc : List (String × Nat) → String → Nat → List (String × Nat)
  | [], ext, n => [(ext, n)]
  | (k, v) :: t, ext, n =>
    if k = ext then (k, v + n) :: t else (k, v) :: bumpAssoc t ext n

/-- Python `set.add` on the seen-extensions set, modelled as a duplicate-free
insertion list. -/
def pySetAdd (l : List String) (e : String) : List String :=
  if e ∈ l then l else l ++ [e]

/-- The statistics update performed by a successful non-test `process_file`. -/
def updStats (st : ProcessingStats) (ext : String) (n : Nat) : ProcessingStats :=
  { total_files := st.total_files + 1
    total_loc := st.total_loc + n
    loc_by_type := bumpAssoc st.loc_by_type ext n
    file_types := pySetAdd st.file_types ext }

/-- `process_file` from the script.  `call` is the per-attempt outcome oracle
of the wrapped model call (the response's message content on success); `ts`
is the modification timestamp.  The result is the Python return value
(`True`/`False`), the updated statistics, the files written
(path, content), and the CSV rows appended.  The file read is assumed to
succeed (its content only feeds the model call, which the oracle already
determines); the surrounding `try`/`except` turns a retry-exhausted call
into a clean `False` with no effects. -/
def process_file (project_path : String) (call : Nat → Except Unit String)
    (file_path output_dir : String) (is_test : Bool) (ts : String)
    (st : ProcessingStats) :
    Bool × ProcessingStats × List (String × String) × List (List String) :=
  if should_exclude file_path then (false, st, [], [])
  else
    match (process_with_retry call).1 with
    | .error _ => (false, st, [], [])
    | .ok response_content =>
      let cleaned_code := clean_code_content response_content
      let changes := extract_section response_content "CHANGES_START" "CHANGES_END"
      let next_steps := extract_section response_content "NEXT_STEPS_START" "NEXT_STEPS_END"
      let output_path := computeOutputPath project_path output_dir file_path is_test
      if is_test then (true, st, [(output_path, cleaned_code)], [])
      else
        (true, updStats st (extOf file_path) (countLines cleaned_code),
         [(output_path, cleaned_code)],
         [[sanitize (basename file_path), ts, sanitize changes, sanitize next_steps]])

/-- The accumulated outcome of one processing pass. -/
structure PassOut where
  stats : ProcessingStats
  results : List Bool
  writes : List (String × String)
  csv : List (List String)
deriving DecidableEq

/-- One pass of the driver loop: apply `process_file` to each file in order,
threading the statistics; `oracle` gives each file's per-attempt call
outcomes. -/
def runPass (project_path : String) (oracle : String → Nat → Except Unit String)
    (output_dir : String) (is_test : Bool) (ts : String) :
    List String → ProcessingStats → PassOut
  | [], st => ⟨st, [], [], []⟩
  | f :: fs, st =>
    let r := process_file project_path (oracle f) f output_dir is_test ts st
    let rest := runPass project_path oracle output_dir is_test ts fs r.2.1
    ⟨rest.stats, r.1 :: rest.results, r.2.2.1 ++ rest.writes, r.2.2.2 ++ rest.csv⟩

/-- The claimed Run Statistics invariant: the total LOC is the sum of the
per-extension buckets, and the seen-extensions set holds exactly the
buckets' keys. -/
def StatsInv (st : ProcessingStats) : Prop :=
  st.total_loc = (st.loc_by_type.map Prod.snd).sum ∧
  ∀ e : String, e ∈ st.file_types ↔ e ∈ st.loc_by_type.map Prod.fst

/-- A value parsed from the historical report: Python `int`, `float`
(idealised as an exact rational) or `str`. -/
inductive PyVal where
  | int : Int → PyVal
  | float : ℚ → PyVal
  | str : String → PyVal
deriving DecidableEq

/-- ASCII decimal digit test (`str.isdigit` restricted to ASCII). -/
def isAsciiDigit (c : Char) : Bool := '0' ≤ c && c ≤ '9'

/-- Value of a list of decimal digits. -/
def digitsToNat (cs : List Char) : Nat :=
  cs.foldl (fun a c => a * 10 + (c.toNat - '0'.toNat)) 0

/-- `str.replace(pat, '')`, non-overlapping, left to right (`pat` nonempty
in all uses).  Fuel is structural and always sufficient. -/
def pyReplaceEmptyAux (pat : List Char) : Nat → List Char → List Char
  | 0, cs => cs
  | _ + 1, [] => []
  | f + 1, c :: rest =>
    if pat.isPrefixOf (c :: rest) then
      pyReplaceEmptyAux pat f ((c :: rest).drop pat.length)
    else c :: pyReplaceEmptyAux pat f rest

/-- `s.replace(pat, '')` on strings. -/
def pyReplaceEmpty (s pat : String) : String :=
  ⟨pyReplaceEmptyAux pat.data (s.data.length + 1) s.data⟩

/-- Unsigned decimal integer parse: nonempty all-digit text. -/
def pyIntOfDigits (cs : List Char) : Option Int :=
  if cs.isEmpty then none
  else if cs.all isAsciiDigit then some (digitsToNat cs) else none

/-- Model of Python `int(str)`: surrounding whitespace stripped, optional
sign, decimal digits (underscore grouping and non-decimal forms are outside
the fragment the report uses); `none` models the `ValueError`. -/
def pyInt (s : String) : Option Int :=
  match pyStrip s.data with
  | '+' :: ds => pyIntOfDigits ds
  | '-' :: ds => (pyIntOfDigits ds).map (fun n => -n)
  | ds => pyIntOfDigits ds

/-- `value.isdigit()` (ASCII fragment): nonempty and all digits. -/
def pyIsDigitS (s : String) : Bool := !s.data.isEmpty && s.data.all isAsciiDigit

/-- Unsigned part of Python `float(str)` for decimal literals. -/
def pyFloatMag (cs : List Char) : Option ℚ :=
  let ip := cs.takeWhile isAsciiDigit
  let rest := cs.dropWhile isAsciiDigit
  match rest with
  | [] => if ip.isEmpty then none else some ((digitsToNat ip : ℚ))
  | '.' :: fp =>
    if fp.all isAsciiDigit && !(ip.isEmpty && fp.isEmpty) then
      some ((digitsToNat ip : ℚ) + (digitsToNat fp : ℚ) / ((10 : ℚ) ^ fp.length))
    else none
  | _ => none

/-- Model of Python `float(str)` on decimal literals (exponents, infinities
and NaN are outside the fragment the report uses); IEEE rounding is
idealised as exact rational arithmetic. -/
def pyFloat (s : String) : Option ℚ :=
  match pyStrip s.data with
  | '+' :: cs => pyFloatMag cs
  | '-' :: cs => (pyFloatMag cs).map (fun q => -q)
  | cs => pyFloatMag cs

/-- Round-half-to-even to an integer (Python `round` tie behaviour). -/
def roundHalfEven (q : ℚ) : Int :=
  let f := ⌊q⌋
  let r := q - (f : ℚ)
  if r < 1 / 2 then f
  else if 1 / 2 < r then f + 1
  else if f % 2 = 0 then f else f + 1

/-- `round(x, 2)` idealised on rationals. -/
def pyRound2 (q : ℚ) : ℚ := ((roundHalfEven (q * 100) : ℚ)) / 100

/-- The value-conversion chain of `generate_final_report`'s parser: values
containing `LOC` become integers after deleting every `" LOC"` substring;
then keys containing `Time` make the value a float; then purely numeric
values become integers; anything else stays a string.  `none` models the
uncaught conversion exception. -/
def convertValue (key value : String) : Option PyVal :=
  if listContains value.data "LOC".data then
    (pyInt (pyReplaceEmpty value " LOC")).map PyVal.int
  else if listContains key.data "Time".data then
    (pyFloat value).map PyVal.float
  else if pyIsDigitS value then some (PyVal.int (digitsToNat value.data))
  else some (PyVal.str value)

/-- Python `dict` assignment on an insertion-ordered association list. -/
def updateAssoc : List (String × PyVal) → String → PyVal → List (String × PyVal)
  | [], k, v => [(k, v)]
  | (k', v') :: t, k, v =>
    if k' = k then (k, v) :: t else (k', v') :: updateAssoc t k v

/-- One row of the historical parse: only two-column rows are considered;
stripped keys or values starting `===` are section markers and skipped;
otherwise the converted value is recorded under the stripped key. -/
def parseRow (acc : List (String × PyVal)) (row : List String) :
    Option (List (String × PyVal)) :=
  match row with
  | [k0, v0] =>
    let key := pyStripS k0
    let value := pyStripS v0
    if pyStartsWithStr key "===" || pyStartsWithStr value "===" then some acc
    else (convertValue key value).map (updateAssoc acc key)
  | _ => some acc

/-- The historical-report parse of `generate_final_report`: the first row is
consumed unconditionally (`next(reader)`), the rest are folded through
`parseRow`; an empty file models the uncaught `StopIteration`. -/
def parseHistorical (rows : List (List String)) : Option (List (String × PyVal)) :=
  match rows with
  | [] => none
  | _ :: rest => rest.foldlM parseRow []

/-- `historical_data.get(key, 0)`. -/
def getD (hd : List (String × PyVal)) (k : String) : PyVal :=
  (lookupA hd k).getD (PyVal.int 0)

/-- Python `+` on parsed report values: int/float addition promotes to
float, string-with-string concatenates, and mixing a number with a string
raises (`none`). -/
def pyAdd : PyVal → PyVal → Option PyVal
  | .int a, .int b => some (.int (a + b))
  | .int a, .float b => some (.float ((a : ℚ) + b))
  | .float a, .int b => some (.float (a + (b : ℚ)))
  | .float a, .float b => some (.float (a + b))
  | .str a, .str b => some (.str (a ++ b))
  | _, _ => none

/-- One step of the per-extension merge loop of `generate_final_report`:
`historical_totals[f"{ext} Files"] = loc + historical_data.get(f"{ext} Files", 0)`. -/
def extStep (hd : List (String × PyVal)) (acc : List (String × PyVal))
    (p : String × Nat) : Option (List (String × PyVal)) :=
  (pyAdd (.int (p.2 : Int)) (getD hd (p.1 ++ " Files"))).map
    (updateAssoc acc (p.1 ++ " Files"))

/-- The `historical_totals` table of `generate_final_report`: each current
metric added to its parsed historical value (missing history defaults to the
integer 0), then the per-extension `"<ext> Files"` rows. -/
def buildHistoricalTotals (stats : ProcessingStats) (tmin : ℚ)
    (hd : List (String × PyVal)) : Option (List (String × PyVal)) := do
  let a ← pyAdd (.int (stats.total_files : Int)) (getD hd "Total Files Modified")
  let b ← pyAdd (.int (stats.total_loc : Int)) (getD hd "Total LOC Converted")
  let c ← pyAdd (.float tmin) (getD hd "Total Time (minutes)")
  stats.loc_by_type.foldlM (extStep hd)
    [("Total Files Modified", a), ("Total LOC Converted", b),
     ("Total Time (minutes)", c)]

/-- The `last_run_data` table (per-extension rows are rendered as
`"<n> LOC"` strings by the script). -/
def last_run_data (stats : ProcessingStats) (tmin : ℚ) : List (String × PyVal) :=
  [("Total Files Modified (Last run)", PyVal.int (stats.total_files : Int)),
   ("Total LOC Converted (Last run)", PyVal.int (stats.total_loc : Int)),
   ("Total Time (minutes) (Last run)", PyVal.float tmin)] ++
  stats.loc_by_type.map
    (fun p => (p.1 ++ " Files (last run)", PyVal.str (toString p.2 ++ " LOC")))

/-- `generate_final_report` modelled as the two tables it writes (the CSV
rendering adds a `" LOC"` unit suffix to LOC-keyed rows); `prior` is the
historical file's rows when the file exists; `none` models an uncaught
parse/merge exception. -/
def generate_final_report (stats : ProcessingStats) (total_time : ℚ)
    (prior : Option (List (List String))) :
    Option (List (String × PyVal) × List (String × PyVal)) := do
  let tmin := pyRound2 (total_time / 60)
  let hd ← match prior with
           | none => some ([] : List (String × PyVal))
           | some rows => parseHistorical rows
  let tbl ← buildHistoricalTotals stats tmin hd
  pure (last_run_data stats tmin, tbl)

theorem startsWith_single (s : String) (c : Char) :
    pyStartsWithStr s ⟨[c]⟩ = (match s.data with | [] => false | c' :: _ => c' = c) := by
  unfold pyStartsWithStr
  cases h : s.data with
  | nil => simp [List.isPrefixOf]
  | cons c' t =>
    simp only [List.isPrefixOf, List.isPrefixOf_nil_left, Bool.and_true]
    simp [Bool.beq_eq_decide_eq, eq_comm]

/-- C8: `sanitize` prefixes a quote character exactly when the text begins
with `=`, `-`, `+` or `@`, and otherwise returns its input unchanged;
`sanitize "=1+1"` gains the quote and `sanitize "normal text"` is unchanged. -/
theorem C8_sanitize_rule :
    (∀ s : String, sanitize s = if beginsWithTrigger s then ⟨quoteChar :: s.data⟩ else s) ∧
    (∀ s : String, sanitize s = ⟨quoteChar :: s.data⟩ ↔ beginsWithTrigger s = true) ∧
    sanitize "=1+1" = ⟨quoteChar :: "=1+1".data⟩ ∧
    sanitize "normal text" = "normal text" := by
  have hmain : ∀ s : String,
      sanitize s = if beginsWithTrigger s then ⟨quoteChar :: s.data⟩ else s := by
    intro s
    unfold sanitize beginsWithTrigger
    rw [show ("=" : String) = ⟨['=']⟩ from rfl, show ("-" : String) = ⟨['-']⟩ from rfl,
        show ("+" : String) = ⟨['+']⟩ from rfl, show ("@" : String) = ⟨['@']⟩ from rfl]
    rw [startsWith_single, startsWith_single, startsWith_single, startsWith_single]
    cases h : s.data with
    | nil => simp
    | cons c t => simp
  refine ⟨hmain, ?_, by decide, by decide⟩
  intro s
  constructor
  · intro h
    by_contra hne
    have hfalse : beginsWithTrigger s = false := by
      cases hb : beginsWithTrigger s
      · rfl
      · exact absurd hb hne
    have := hmain s
    rw [hfalse] at this
    rw [if_neg (by simp)] at this
    rw [this] at h
    have hdata : s.data = quoteChar :: s.data := congrArg String.data h
    have : s.data.length = s.data.length + 1 := by
      conv_lhs => rw [hdata]
      simp
    omega
  · intro h
    have := hmain s
    rw [h] at this
    simpa using this

theorem C8_sanitize_rule_witness :
    sanitize "normal text" = "normal text" :=
  C8_sanitize_rule.2.2.2

/-- C9: `sanitize` is idempotent — a quoted string no longer begins with a
trigger character, so applying `sanitize` twice equals applying it once. -/
theorem C9_sanitize_idempotent :
    ∀ s : String, sanitize (sanitize s) = sanitize s := by
  intro s
  unfold sanitize
  by_cases h : (pyStartsWithStr s "=" || pyStartsWithStr s "-" ||
      pyStartsWithStr s "+" || pyStartsWithStr s "@") = true
  · rw [if_pos h]
    have hq : ∀ p : String, p.data.length = 1 →
        pyStartsWithStr (⟨quoteChar :: s.data⟩ : String) p =
          (p.data.headI = quoteChar) := by
      intro p hp
      unfold pyStartsWithStr
      cases hpd : p.data with
      | nil => simp [hpd] at hp
      | cons c t =>
        rw [hpd] at hp
        simp at hp
        subst hp
        simp [List.isPrefixOf, List.headI]
    rw [if_neg]
    simp only [Bool.or_eq_true, not_or]
    refine ⟨⟨⟨?_, ?_⟩, ?_⟩, ?_⟩ <;>
      · rw [hq _ (by decide)]
        decide
  · rw [if_neg h, if_neg h]

theorem findSubAux_shift (pat : List Char) :
    ∀ (cs : List Char) (i : Nat),
      findSubAux pat cs i = (findSubAux pat cs 0).map (· + i) := by
  intro cs
  induction cs with
  | nil =>
    intro i
    simp only [findSubAux]
    by_cases h : pat.isPrefixOf [] = true
    · simp [h]
    · simp only [Bool.not_eq_true] at h
      simp [h]
  | cons c rest ih =>
    intro i
    simp only [findSubAux]
    by_cases h : pat.isPrefixOf (c :: rest) = true
    · simp [h]
    · simp only [Bool.not_eq_true] at h
      simp only [h, Bool.false_eq_true, if_false]
      rw [ih (i + 1), ih 1, Option.map_map]
      congr 1
      funext x
      simp
      omega

theorem findSub_none_iff (cs pat : List Char) :
    findSub cs pat = none ↔
      ∀ j, j ≤ cs.length → pat.isPrefixOf (cs.drop j) = false := by
  induction cs with
  | nil =>
    simp only [findSub, findSubAux]
    by_cases h : pat.isPrefixOf [] = true
    · simp [h]
    · simp only [Bool.not_eq_true] at h
      simp only [h, Bool.false_eq_true, if_false]
      constructor
      · intro _ j hj
        have hj0 : j = 0 := by simpa using hj
        subst hj0
        simpa using h
      · intro _
        trivial
  | cons c rest ih =>
    simp only [findSub] at *
    simp only [findSubAux]
    by_cases h : pat.isPrefixOf (c :: rest) = true
    · simp only [h, if_true]
      constructor
      · intro hc; exact absurd hc (by simp)
      · intro hall
        have := hall 0 (by simp)
        simp only [List.drop_zero] at this
        rw [h] at this
        exact absurd this (by simp)
    · simp only [Bool.not_eq_true] at h
      simp only [h, Bool.false_eq_true, if_false]
      rw [findSubAux_shift]
      constructor
      · intro hnone j hj
        have hr : findSubAux pat rest 0 = none := by
          cases hfs : findSubAux pat rest 0 with
          | none => rfl
          | some k => rw [hfs] at hnone; simp at hnone
        cases j with
        | zero => simpa using h
        | succ j' =>
          have := (ih.mp hr) j' (by simpa using hj)
          simpa using this
      · intro hall
        have hr : findSubAux pat rest 0 = none := by
          apply ih.mpr
          intro j hj
          have := hall (j + 1) (by simpa using hj)
          simpa using this
        rw [hr]; rfl

theorem findSub_some_spec (cs pat : List Char) (i : Nat)
    (h : findSub cs pat = some i) :
    pat.isPrefixOf (cs.drop i) = true ∧
      ∀ j, j < i → pat.isPrefixOf (cs.drop j) = false := by
  induction cs generalizing i with
  | nil =>
    simp only [findSub, findSubAux] at h
    by_cases hp : pat.isPrefixOf [] = true
    · rw [if_pos hp] at h
      simp at h
      subst h
      exact ⟨hp, by intro j hj; omega⟩
    · simp only [Bool.not_eq_true] at hp
      rw [if_neg (by simp [hp])] at h
      simp at h
  | cons c rest ih =>
    simp only [findSub, findSubAux] at h
    by_cases hp : pat.isPrefixOf (c :: rest) = true
    · rw [if_pos hp] at h
      simp at h
      subst h
      exact ⟨by simpa using hp, by intro j hj; omega⟩
    · simp only [Bool.not_eq_true] at hp
      rw [if_neg (by simp [hp])] at h
      rw [findSubAux_shift] at h
      cases hfs : findSubAux pat rest 0 with
      | none => rw [hfs] at h; simp at h
      | some k =>
        rw [hfs] at h
        simp at h
        subst h
        obtain ⟨h1, h2⟩ := ih k hfs
        refine ⟨by simpa using h1, ?_⟩
        intro j hj
        cases j with
        | zero => simpa using hp
        | succ j' =>
          have := h2 j' (by omega)
          simpa using this

theorem findSub_of_least (cs pat : List Char) (i : Nat)
    (h1 : pat.isPrefixOf (cs.drop i) = true)
    (h2 : ∀ j, j < i → pat.isPrefixOf (cs.drop j) = false) :
    findSub cs pat = some i := by
  induction cs generalizing i with
  | nil =>
    have hi : i = 0 := by
      by_contra hne
      have := h2 0 (by omega)
      simp only [List.drop_nil] at h1
      simp only [List.drop_zero, List.drop_nil] at this ⊢
      rw [h1] at this
      simp at this
    subst hi
    simp only [List.drop_zero] at h1
    simp [findSub, findSubAux, h1]
  | cons c rest ih =>
    cases i with
    | zero =>
      simp only [List.drop_zero] at h1
      simp [findSub, findSubAux, h1]
    | succ i' =>
      have hp : pat.isPrefixOf (c :: rest) = false := by
        have := h2 0 (by omega)
        simpa using this
      simp only [findSub, findSubAux, hp, Bool.false_eq_true, if_false]
      rw [findSubAux_shift]
      have : findSub rest pat = some i' := by
        apply ih
        · simpa using h1
        · intro j hj
          have := h2 (j + 1) (by omega)
          simpa using this
      simp only [findSub] at this
      rw [this]
      rfl

theorem removeThinkAux_fuel :
    ∀ (f₁ f₂ : Nat) (cs : List Char), cs.length < f₁ → cs.length < f₂ →
      removeThinkAux f₁ cs = removeThinkAux f₂ cs := by
  intro f₁
  induction f₁ with
  | zero => intro f₂ cs h1 _; omega
  | succ f ih =>
    intro f₂ cs h1 h2
    cases f₂ with
    | zero => omega
    | succ g =>
      cases cs with
      | nil => rfl
      | cons c rest =>
        simp only [removeThinkAux]
        by_cases hp : thinkOpen.isPrefixOf (c :: rest) = true
        · rw [if_pos hp, if_pos hp]
          cases hfs : findSub ((c :: rest).drop 7) thinkClose with
          | none => rfl
          | some j =>
            apply ih
            · have := List.length_drop (j + 8) ((c :: rest).drop 7)
              have := List.length_drop 7 (c :: rest)
              simp only [List.length_cons] at *
              omega
            · have := List.length_drop (j + 8) ((c :: rest).drop 7)
              have := List.length_drop 7 (c :: rest)
              simp only [List.length_cons] at *
              omega
        · simp only [Bool.not_eq_true] at hp
          rw [if_neg (by simp [hp]), if_neg (by simp [hp])]
          have hlen : rest.length < f := by
            simp only [List.length_cons] at h1; omega
          have hlen2 : rest.length < g := by
            simp only [List.length_cons] at h2; omega
          rw [ih g rest hlen hlen2]

theorem removeThink_of_no_open (cs : List Char)
    (h : findSub cs thinkOpen = none) : removeThink cs = cs := by
  suffices hgen : ∀ (f : Nat) (cs : List Char), findSub cs thinkOpen = none →
      removeThinkAux f cs = cs by
    exact hgen _ _ h
  intro f
  induction f with
  | zero => intro cs _; rfl
  | succ f ih =>
    intro cs hnone
    cases cs with
    | nil => rfl
    | cons c rest =>
      have hp : thinkOpen.isPrefixOf (c :: rest) = false := by
        have := (findSub_none_iff (c :: rest) thinkOpen).mp hnone 0 (by omega)
        simpa using this
      have hrest : findSub rest thinkOpen = none := by
        rw [findSub_none_iff]
        intro j hj
        have := (findSub_none_iff (c :: rest) thinkOpen).mp hnone (j + 1)
          (by simp only [List.length_cons]; omega)
        simpa using this
      simp only [removeThinkAux, hp, Bool.false_eq_true, if_false]
      rw [ih rest hrest]

theorem removeThink_step (cs : List Char) (i j : Nat)
    (hopen : findSub cs thinkOpen = some i)
    (hclose : findSub (cs.drop (i + 7)) thinkClose = some j) :
    removeThink cs = cs.take i ++ removeThink ((cs.drop (i + 7)).drop (j + 8)) := by
  induction cs generalizing i with
  | nil =>
    exfalso
    have := (findSub_some_spec [] thinkOpen i hopen).1
    simp only [List.drop_nil] at this
    have : thinkOpen = [] := by
      cases hto : thinkOpen with
      | nil => rfl
      | cons a b => rw [hto] at this; simp [List.isPrefixOf] at this
    simp [thinkOpen] at this
  | cons c rest ih =>
    simp only [findSub, findSubAux] at hopen
    by_cases hp : thinkOpen.isPrefixOf (c :: rest) = true
    · rw [if_pos hp] at hopen
      simp at hopen
      subst hopen
      simp only [List.take_zero, List.nil_append, Nat.zero_add] at *
      simp only [removeThink, removeThinkAux, hp, if_true]
      rw [hclose]
      apply removeThinkAux_fuel
      · have := List.length_drop (j + 8) ((c :: rest).drop 7)
        have := List.length_drop 7 (c :: rest)
        simp only [List.length_cons] at *
        omega
      · omega
    · simp only [Bool.not_eq_true] at hp
      rw [if_neg (by simp [hp])] at hopen
      rw [findSubAux_shift] at hopen
      cases hfs : findSubAux thinkOpen rest 0 with
      | none => rw [hfs] at hopen; simp at hopen
      | some k =>
        rw [hfs] at hopen
        simp at hopen
        subst hopen
        have hclose' : findSub (rest.drop (k + 7)) thinkClose = some j := by
          have : (c :: rest).drop (k + 1 + 7) = rest.drop (k + 7) := by
            simp [List.drop_succ_cons, Nat.add_right_comm]
          rw [this] at hclose
          exact hclose
        have := ih k hfs hclose'
        have hunf : removeThink (c :: rest) = c :: removeThink rest := by
          simp only [removeThink, removeThinkAux, hp, Bool.false_eq_true, if_false,
            List.length_cons]
        rw [hunf, this]
        have hdrop : (c :: rest).drop (k + 1 + 7) = rest.drop (k + 7) := by
          simp [List.drop_succ_cons, Nat.add_right_comm]
        rw [hdrop]
        simp [List.take_succ_cons]

/-- C3: on a response whose reasoning-stripped text contains fenced code
regions, `clean_code_content` returns the regions' individually trimmed
contents joined by a blank line, with the whole result trimmed; reasoning
regions are removed first regardless of position (no marker: identity;
leftmost open marker with a later close marker: that non-greedy region is
removed and removal continues after it). -/
theorem C3_clean_code_fenced (content : String) (bs : List (List Char))
    (hbs : findCodeBlocks (removeThink content.data) = bs) (hne : bs ≠ []) :
    clean_code_content content =
      ⟨pyStrip (List.intercalate ['\n', '\n'] (bs.map pyStrip))⟩ ∧
    (∀ s : List Char, findSub s thinkOpen = none → removeThink s = s) ∧
    (∀ (s : List Char) (i j : Nat), findSub s thinkOpen = some i →
       findSub (s.drop (i + 7)) thinkClose = some j →
       removeThink s = s.take i ++ removeThink ((s.drop (i + 7)).drop (j + 8))) := by
  refine ⟨?_, removeThink_of_no_open, removeThink_step⟩
  unfold clean_code_content
  simp only [hbs]
  have : bs.isEmpty = false := by
    cases bs with
    | nil => exact absurd rfl hne
    | cons a b => rfl
  rw [this]
  simp

theorem C3_clean_code_fenced_witness :
    clean_code_content "```python\nX\n```" = "X" := by
  have h := (C3_clean_code_fenced "```python\nX\n```" ["X\n".data]
    (by decide) (by decide)).1
  rw [h]
  decide

theorem isPrefixOf_self_append (l t : List Char) : l.isPrefixOf (l ++ t) = true := by
  induction l with
  | nil => simp [List.isPrefixOf]
  | cons c l' ih => simp [List.isPrefixOf, ih]

theorem splitLines_ne_nil (cs : List Char) : splitLines cs ≠ [] := by
  cases cs with
  | nil => simp [splitLines]
  | cons c rest =>
    simp only [splitLines]
    cases splitLines rest with
    | nil => simp
    | cons l ls =>
      by_cases h : c = '\n'
      · simp [h]
      · simp [h]

theorem splitLines_newline (s rest : List Char) (h : '\n' ∉ s) :
    splitLines (s ++ '\n' :: rest) = s :: splitLines rest := by
  induction s with
  | nil =>
    simp only [List.nil_append, splitLines]
    cases hs : splitLines rest with
    | nil => exact absurd hs (splitLines_ne_nil rest)
    | cons l ls => simp
  | cons c s' ih =>
    have hc : c ≠ '\n' := by
      intro hc
      exact h (by simp [hc])
    have hs' : '\n' ∉ s' := by
      intro hm
      exact h (by simp [hm])
    have hstep : splitLines ((c :: s') ++ '\n' :: rest) =
        match splitLines (s' ++ '\n' :: rest) with
        | [] => [[c]]
        | l :: ls => if c = '\n' then [] :: l :: ls else (c :: l) :: ls := rfl
    rw [hstep, ih hs']
    simp [hc]

theorem splitLines_no_newline (s : List Char) (h : '\n' ∉ s) :
    splitLines s = [s] := by
  induction s with
  | nil => rfl
  | cons c s' ih =>
    have hc : c ≠ '\n' := by
      intro hc
      exact h (by simp [hc])
    have hs' : '\n' ∉ s' := by
      intro hm
      exact h (by simp [hm])
    simp only [splitLines, ih hs']
    simp [hc]

/-- C4 counterexample: on a response with no fenced region and no reasoning
block, the code removes a `Here...` line that is NOT the leading line
(`"x\nHere is more\ny"` becomes `"x\ny"`), whereas the claim says such a
line is preserved (output `"x\nHere is more\ny"`). -/
theorem C4_counterexample :
    clean_code_content "x\nHere is more\ny" = "x\ny" ∧
    ("x\ny" : String) ≠ "x\nHere is more\ny" := by
  constructor
  · decide
  · decide

/-- C4 amended: on a response with no fenced region and no reasoning marker,
`clean_code_content` removes EVERY newline-terminated line that begins with
the preamble word `Here` — at any line position, not only a single leading
line — keeps every other line (and always the final unterminated line), and
trims the result. -/
theorem C4_amended_remove_all_here_lines (content : String)
    (hthink : findSub content.data thinkOpen = none)
    (hnof : findCodeBlocks content.data = []) :
    clean_code_content content = ⟨pyStrip (removeHereLines content.data)⟩ ∧
    (∀ s rest : List Char, '\n' ∉ s →
       removeHereLines (("Here".data ++ s) ++ '\n' :: rest) = removeHereLines rest) ∧
    (∀ s rest : List Char, '\n' ∉ s → "Here".data.isPrefixOf s = false →
       removeHereLines (s ++ '\n' :: rest) = s ++ '\n' :: removeHereLines rest) ∧
    (∀ s : List Char, '\n' ∉ s → removeHereLines s = s) := by
  refine ⟨?_, ?_, ?_, ?_⟩
  · simp only [clean_code_content, removeThink_of_no_open content.data hthink, hnof]
    rfl
  · intro s rest hs
    have hnolf : '\n' ∉ "Here".data ++ s := by
      intro hm
      rcases List.mem_append.mp hm with hm | hm
      · simp at hm
      · exact hs hm
    unfold removeHereLines
    rw [splitLines_newline _ _ hnolf]
    cases hsr : splitLines rest with
    | nil => exact absurd hsr (splitLines_ne_nil rest)
    | cons l ls =>
      simp only [joinRemove, isPrefixOf_self_append, if_true]
      rfl
  · intro s rest hs hpre
    unfold removeHereLines
    rw [splitLines_newline _ _ hs]
    cases hsr : splitLines rest with
    | nil => exact absurd hsr (splitLines_ne_nil rest)
    | cons l ls =>
      simp only [joinRemove, hpre, Bool.false_eq_true, if_false]
      simp
  · intro s hs
    unfold removeHereLines
    rw [splitLines_no_newline s hs]
    rfl

theorem C4_amended_remove_all_here_lines_witness :
    clean_code_content "q\nHere a\nHere b\nz" = "q\nz" := by
  have h := C4_amended_remove_all_here_lines "q\nHere a\nHere b\nz"
    (by decide) (by decide)
  rw [h.1]
  decide

/-- C5 counterexample: the code strips the extracted slice BEFORE removing
leading bullets, so bullet removal can re-expose trailing whitespace and the
final result need not be trimmed: on `"A_STARTfoo\n-A_END"` the code returns
`"foo\n"`, while the claim's order (bullets stripped, then the whole result
trimmed) gives `"foo"`. -/
theorem C5_counterexample :
    extract_section "A_STARTfoo\n-A_END" "A_START" "A_END" = "foo\n" ∧
    extract_section_claimed "A_STARTfoo\n-A_END" "A_START" "A_END" = "foo" ∧
    ("foo\n" : String) ≠ "foo" := by
  refine ⟨by decide, by decide, by decide⟩

/-- C5 amended: `extract_section` returns the fixed sentinel when the start
marker is absent; otherwise it takes the substring from the end of the FIRST
start-marker occurrence to the FIRST subsequent end-marker occurrence (or to
the end of the text), trims it, and THEN strips each line's leading bullet
punctuation plus following whitespace — so the result can retain trailing
whitespace exposed by bullet removal; on `"A_STARTfooA_END"` with markers
`"A_START"`/`"A_END"` it returns `"foo"`. -/
theorem C5_amended_extract_section (content start_marker end_marker : String) :
    ((∀ j, j ≤ content.data.length →
        start_marker.data.isPrefixOf (content.data.drop j) = false) →
      extract_section content start_marker end_marker = "No changes documented") ∧
    (∀ i, start_marker.data.isPrefixOf (content.data.drop i) = true →
      (∀ j, j < i → start_marker.data.isPrefixOf (content.data.drop j) = false) →
      (∀ j, j ≤ (content.data.drop (i + start_marker.data.length)).length →
        end_marker.data.isPrefixOf
          ((content.data.drop (i + start_marker.data.length)).drop j) = false) →
      extract_section content start_marker end_marker =
        ⟨subBullets (pyStrip (content.data.drop (i + start_marker.data.length)))⟩) ∧
    (∀ i j, start_marker.data.isPrefixOf (content.data.drop i) = true →
      (∀ j', j' < i → start_marker.data.isPrefixOf (content.data.drop j') = false) →
      end_marker.data.isPrefixOf
        ((content.data.drop (i + start_marker.data.length)).drop j) = true →
      (∀ j', j' < j → end_marker.data.isPrefixOf
        ((content.data.drop (i + start_marker.data.length)).drop j') = false) →
      extract_section content start_marker end_marker =
        ⟨subBullets (pyStrip ((content.data.drop (i + start_marker.data.length)).take j))⟩) ∧
    extract_section "A_STARTfooA_END" "A_START" "A_END" = "foo" := by
  refine ⟨?_, ?_, ?_, by decide⟩
  · intro hall
    have hnone : findSub content.data start_marker.data = none :=
      (findSub_none_iff _ _).mpr hall
    simp only [extract_section, hnone]
  · intro i h1 h2 h3
    have hsome : findSub content.data start_marker.data = some i :=
      findSub_of_least _ _ i h1 h2
    have hnone : findSub (content.data.drop (i + start_marker.data.length))
        end_marker.data = none := (findSub_none_iff _ _).mpr h3
    simp only [extract_section, hsome, hnone]
  · intro i j h1 h2 h3 h4
    have hsome : findSub content.data start_marker.data = some i :=
      findSub_of_least _ _ i h1 h2
    have hsome2 : findSub (content.data.drop (i + start_marker.data.length))
        end_marker.data = some j := findSub_of_least _ _ j h3 h4
    simp only [extract_section, hsome, hsome2]

theorem C5_amended_extract_section_witness :
    extract_section "xyz" "A_START" "A_END" = "No changes documented" :=
  (C5_amended_extract_section "xyz" "A_START" "A_END").1 (by decide)

theorem retryWaitFor_bounds (m : Nat) : 4 ≤ retryWaitFor m ∧ retryWaitFor m ≤ 10 := by
  unfold retryWaitFor wait_exponential
  constructor
  · exact le_max_left _ _
  · exact max_le (by norm_num) (min_le_right _ _)

theorem retryLoop_waits {E R : Type} (call : Nat → Except E R) :
    ∀ (n k : Nat), (retryLoop call k n).2.length ≤ n ∧
      ∀ w ∈ (retryLoop call k n).2, ∃ m, w = retryWaitFor m := by
  intro n
  induction n with
  | zero => intro k; simp [retryLoop]
  | succ n ih =>
    intro k
    simp only [retryLoop]
    cases hc : call k with
    | ok r => simp
    | error e =>
      simp only [List.length_cons, List.mem_cons]
      obtain ⟨hl, hm⟩ := ih (k + 1)
      constructor
      · omega
      · intro w hw
        rcases hw with hw | hw
        · exact ⟨k, hw⟩
        · exact hm w hw

/-- C1: `process_with_retry` retries the wrapped call on any exception, makes
at most 5 attempts in total, sleeps between consecutive attempts for the
exponential-backoff times clamped to `[4, 10]` (concretely 4, 4, 8, 10), and
when every attempt fails it propagates the final attempt's exception
(tenacity's `RetryError` carries the last attempt). -/
theorem C1_retry_policy {E R : Type} (call : Nat → Except E R) (e : Nat → E)
    (hfail : ∀ k, 1 ≤ k → k ≤ 5 → call k = .error (e k)) :
    (process_with_retry call).1 = .error (e 5) ∧
    (process_with_retry call).2 =
      [retryWaitFor 1, retryWaitFor 2, retryWaitFor 3, retryWaitFor 4] ∧
    [retryWaitFor 1, retryWaitFor 2, retryWaitFor 3, retryWaitFor 4] = [4, 4, 8, 10] ∧
    (∀ call' : Nat → Except E R, (process_with_retry call').2.length ≤ 4 ∧
      ∀ w ∈ (process_with_retry call').2, 4 ≤ w ∧ w ≤ 10) := by
  have h1 := hfail 1 (by omega) (by omega)
  have h2 := hfail 2 (by omega) (by omega)
  have h3 := hfail 3 (by omega) (by omega)
  have h4 := hfail 4 (by omega) (by omega)
  have h5 := hfail 5 (by omega) (by omega)
  refine ⟨?_, ?_, by decide, ?_⟩
  · simp [process_with_retry, retryLoop, h1, h2, h3, h4, h5]
  · simp [process_with_retry, retryLoop, h1, h2, h3, h4, h5]
  · intro call'
    obtain ⟨hl, hm⟩ := retryLoop_waits call' 4 1
    refine ⟨hl, ?_⟩
    intro w hw
    obtain ⟨m, hmw⟩ := hm w hw
    rw [hmw]
    exact retryWaitFor_bounds m

theorem C1_retry_policy_witness :
    (process_with_retry (fun k => (Except.error k : Except Nat Unit))).1 =
      Except.error 5 :=
  (C1_retry_policy (fun k => (Except.error k : Except Nat Unit)) (fun k => k)
    (fun _ _ _ => rfl)).1

theorem process_with_retry_all_error {R : Type} (call : Nat → Except Unit R)
    (h : ∀ k, call k = .error ()) : (process_with_retry call).1 = .error () := by
  simp [process_with_retry, retryLoop, h 1, h 2, h 3, h 4, h 5]

/-- C2: an eligible file whose model call fails on every one of the 5
attempts makes `process_file` return the failed result (`false`) with the
statistics unchanged, no file written and no CSV row appended; and within a
pass the remaining files are processed exactly as if the failed file had
been absent. -/
theorem C2_failed_file_no_effects (project_path output_dir ts : String)
    (oracle : String → Nat → Except Unit String) (f : String) (fs : List String)
    (is_test : Bool) (st : ProcessingStats)
    (hel : should_exclude f = false)
    (hfail : ∀ k, oracle f k = .error ()) :
    process_file project_path (oracle f) f output_dir is_test ts st =
      (false, st, [], []) ∧
    runPass project_path oracle output_dir is_test ts (f :: fs) st =
      { stats := (runPass project_path oracle output_dir is_test ts fs st).stats
        results := false :: (runPass project_path oracle output_dir is_test ts fs st).results
        writes := (runPass project_path oracle output_dir is_test ts fs st).writes
        csv := (runPass project_path oracle output_dir is_test ts fs st).csv } := by
  have herr := process_with_retry_all_error (oracle f) hfail
  have hpf : process_file project_path (oracle f) f output_dir is_test ts st =
      (false, st, [], []) := by
    unfold process_file
    rw [hel]
    simp only [Bool.false_eq_true, if_false]
    rw [herr]
  refine ⟨hpf, ?_⟩
  show (let r := process_file project_path (oracle f) f output_dir is_test ts st
        let rest := runPass project_path oracle output_dir is_test ts fs r.2.1
        (⟨rest.stats, r.1 :: rest.results, r.2.2.1 ++ rest.writes,
          r.2.2.2 ++ rest.csv⟩ : PassOut)) = _
  rw [hpf]
  simp

theorem C2_failed_file_no_effects_witness :
    process_file "p" ((fun _ _ => Except.error ()) "p/a.py") "p/a.py" "o" false "t"
      ⟨0, 0, [], []⟩ = (false, ⟨0, 0, [], []⟩, [], []) :=
  (C2_failed_file_no_effects "p" "o" "t" (fun _ _ => Except.error ()) "p/a.py" []
    false ⟨0, 0, [], []⟩ (by decide) (fun _ => rfl)).1

/-- C10: `process_file` returns `false` both for an excluded (skipped) file
and for a file whose model call fails after all retries, so the caller
cannot tell the two apart from the return value; only a processed file
returns `true`. -/
theorem C10_return_value_conflation (project_path output_dir ts f : String)
    (is_test : Bool) (call : Nat → Except Unit String) (st : ProcessingStats) :
    (should_exclude f = true →
      (process_file project_path call f output_dir is_test ts st).1 = false) ∧
    (should_exclude f = false → (process_with_retry call).1 = .error () →
      (process_file project_path call f output_dir is_test ts st).1 = false) ∧
    (∀ r, should_exclude f = false → (process_with_retry call).1 = .ok r →
      (process_file project_path call f output_dir is_test ts st).1 = true) := by
  refine ⟨?_, ?_, ?_⟩
  · intro hse
    unfold process_file
    rw [hse]
    rfl
  · intro hse herr
    unfold process_file
    rw [hse]
    simp only [Bool.false_eq_true, if_false]
    rw [herr]
  · intro r hse hok
    unfold process_file
    rw [hse]
    simp only [Bool.false_eq_true, if_false]
    rw [hok]
    cases is_test with
    | true => rfl
    | false => rfl

theorem C10_return_value_conflation_witness :
    (process_file "p" (fun _ => Except.error ()) "p/aTest.py" "o" false "t"
      ⟨0, 0, [], []⟩).1 = false :=
  (C10_return_value_conflation "p" "o" "t" "p/aTest.py" false
    (fun _ => Except.error ()) ⟨0, 0, [], []⟩).1 (by decide)

theorem bumpAssoc_sum (l : List (String × Nat)) (e : String) (n : Nat) :
    ((bumpAssoc l e n).map Prod.snd).sum = (l.map Prod.snd).sum + n := by
  induction l with
  | nil => simp [bumpAssoc]
  | cons p t ih =>
    obtain ⟨k, v⟩ := p
    by_cases h : k = e
    · simp [bumpAssoc, h]
      omega
    · simp [bumpAssoc, h, ih]
      omega

theorem bumpAssoc_keys (l : List (String × Nat)) (e : String) (n : Nat) (x : String) :
    x ∈ (bumpAssoc l e n).map Prod.fst ↔ x ∈ l.map Prod.fst ∨ x = e := by
  induction l with
  | nil => simp [bumpAssoc]
  | cons p t ih =>
    obtain ⟨k, v⟩ := p
    by_cases h : k = e
    · subst h
      simp [bumpAssoc]
      tauto
    · simp [bumpAssoc, h, ih]
      tauto

theorem pySetAdd_mem (l : List String) (e x : String) :
    x ∈ pySetAdd l e ↔ x ∈ l ∨ x = e := by
  unfold pySetAdd
  by_cases h : e ∈ l
  · simp only [h, if_true]
    constructor
    · tauto
    · rintro (hx | hx)
      · exact hx
      · rw [hx]; exact h
  · simp [h]

theorem statsInv_updStats (st : ProcessingStats) (e : String) (n : Nat)
    (hinv : StatsInv st) : StatsInv (updStats st e n) := by
  obtain ⟨hsum, hkeys⟩ := hinv
  constructor
  · simp only [updStats, bumpAssoc_sum]
    omega
  · intro x
    simp only [updStats]
    rw [pySetAdd_mem, bumpAssoc_keys, hkeys x]

theorem bumpAssoc_lookup (l : List (String × Nat)) (e : String) (n : Nat) :
    lookupA (bumpAssoc l e n) e = some ((lookupA l e).getD 0 + n) := by
  induction l with
  | nil => simp [bumpAssoc, lookupA]
  | cons p t ih =>
    obtain ⟨k, v⟩ := p
    by_cases h : k = e
    · simp [bumpAssoc, h, lookupA]
    · simp [bumpAssoc, h, lookupA, ih]

/-- C7: the Run Statistics invariant — total LOC is the sum of the
per-extension buckets and the seen-extensions set holds exactly the bucket
keys — is preserved by every `process_file` call; a successful non-test call
adds the cleaned content's line count to the total and to the file's
extension bucket and increments the file count, while excluded (skipped),
test-artifact and failed calls leave the statistics unchanged. -/
theorem C7_stats_invariant (project_path output_dir ts f : String) (is_test : Bool)
    (call : Nat → Except Unit String) (st : ProcessingStats) (hinv : StatsInv st) :
    StatsInv (process_file project_path call f output_dir is_test ts st).2.1 ∧
    (should_exclude f = true →
      (process_file project_path call f output_dir is_test ts st).2.1 = st) ∧
    (is_test = true →
      (process_file project_path call f output_dir is_test ts st).2.1 = st) ∧
    ((process_with_retry call).1 = .error () →
      (process_file project_path call f output_dir is_test ts st).2.1 = st) ∧
    (∀ r, should_exclude f = false → is_test = false →
      (process_with_retry call).1 = .ok r →
      (process_file project_path call f output_dir is_test ts st).2.1 =
        updStats st (extOf f) (countLines (clean_code_content r)) ∧
      (process_file project_path call f output_dir is_test ts st).2.1.total_files =
        st.total_files + 1 ∧
      (process_file project_path call f output_dir is_test ts st).2.1.total_loc =
        st.total_loc + countLines (clean_code_content r) ∧
      lookupA (process_file project_path call f output_dir is_test ts st).2.1.loc_by_type
          (extOf f) =
        some ((lookupA st.loc_by_type (extOf f)).getD 0 +
          countLines (clean_code_content r))) := by
  by_cases hse : should_exclude f = true
  · have hpf : (process_file project_path call f output_dir is_test ts st).2.1 = st := by
      unfold process_file
      rw [hse]
      rfl
    refine ⟨by rw [hpf]; exact hinv, fun _ => hpf, fun _ => hpf, fun _ => hpf, ?_⟩
    intro r hse' _ _
    rw [hse] at hse'
    exact absurd hse' (by simp)
  · have hse' : should_exclude f = false := by
      cases h : should_exclude f
      · rfl
      · exact absurd h hse
    cases hres : (process_with_retry call).1 with
    | error u =>
      have hpf : (process_file project_path call f output_dir is_test ts st).2.1 = st := by
        unfold process_file
        rw [hse']
        simp only [Bool.false_eq_true, if_false]
        rw [hres]
      refine ⟨by rw [hpf]; exact hinv, fun h => hpf, fun _ => hpf, fun _ => hpf, ?_⟩
      intro r _ _ hok
      exact absurd hok (by simp)
    | ok r =>
      cases is_test with
      | true =>
        have hpf : (process_file project_path call f output_dir true ts st).2.1 = st := by
          unfold process_file
          rw [hse']
          simp only [Bool.false_eq_true, if_false]
          rw [hres]
          rfl
        refine ⟨by rw [hpf]; exact hinv, fun _ => hpf, fun _ => hpf, ?_, ?_⟩
        · intro herr
          exact absurd herr (by simp)
        · intro r' _ hit _
          exact absurd hit (by simp)
      | false =>
        have hpf : (process_file project_path call f output_dir false ts st).2.1 =
            updStats st (extOf f) (countLines (clean_code_content r)) := by
          unfold process_file
          rw [hse']
          simp only [Bool.false_eq_true, if_false]
          rw [hres]
        refine ⟨by rw [hpf]; exact statsInv_updStats st _ _ hinv, fun h => ?_,
          fun h => ?_, fun herr => ?_, ?_⟩
        · rw [hse'] at h
          exact absurd h (by simp)
        · exact absurd h (by simp)
        · exact absurd herr (by simp)
        · intro r' _ _ hok
          injection hok with h
          subst h
          refine ⟨hpf, ?_, ?_, ?_⟩
          · rw [hpf]; rfl
          · rw [hpf]; rfl
          · rw [hpf]
            exact bumpAssoc_lookup st.loc_by_type (extOf f)
              (countLines (clean_code_content r))

theorem C7_stats_invariant_witness :
    (process_file "p" (fun _ => Except.ok "a\nb") "p/a.py" "o" false "t"
      ⟨0, 0, [], []⟩).2.1.total_files = 0 + 1 :=
  ((C7_stats_invariant "p" "o" "t" "p/a.py" false (fun _ => Except.ok "a\nb")
    ⟨0, 0, [], []⟩ ⟨rfl, fun e => by simp⟩).2.2.2.2 "a\nb" (by decide) rfl rfl).2.1

theorem lookupA_cons {α : Type} (k' : String) (v : α) (t : List (String × α)) (k : String) :
    lookupA ((k', v) :: t) k = if k' = k then some v else lookupA t k := rfl

theorem lookupA_updateAssoc_self (l : List (String × PyVal)) (k : String) (v : PyVal) :
    lookupA (updateAssoc l k v) k = some v := by
  induction l with
  | nil => simp [updateAssoc, lookupA]
  | cons p t ih =>
    obtain ⟨k', v'⟩ := p
    by_cases h : k' = k
    · simp [updateAssoc, h, lookupA]
    · simp [updateAssoc, h, lookupA, ih]

theorem lookupA_updateAssoc_ne (l : List (String × PyVal)) (k' k : String) (v : PyVal)
    (h : ¬(k' = k)) : lookupA (updateAssoc l k' v) k = lookupA l k := by
  induction l with
  | nil => simp [updateAssoc, lookupA, h]
  | cons p t ih =>
    obtain ⟨k0, v0⟩ := p
    by_cases h0 : k0 = k'
    · subst h0
      simp [updateAssoc, lookupA, h]
    · simp [updateAssoc, h0, lookupA, ih]

theorem ends_with_files (s b : String) (heq : s ++ " Files" = b) :
    b.data.drop (b.data.length - 6) = " Files".data := by
  have hd : s.data ++ " Files".data = b.data := by
    rw [← String.data_append, heq]
  rw [← hd]
  simp only [List.length_append]
  have h6 : (" Files" : String).data.length = 6 := by decide
  rw [h6]
  have harith : s.data.length + 6 - 6 = s.data.length := by omega
  rw [harith]
  exact List.drop_left s.data " Files".data

theorem append_files_inj (p q : String) (h : p ++ " Files" = q ++ " Files") : p = q := by
  have hd : p.data ++ " Files".data = q.data ++ " Files".data := by
    rw [← String.data_append, ← String.data_append, h]
  have hlen : p.data.length = q.data.length := by
    have := congrArg List.length hd
    simp only [List.length_append] at this
    omega
  have hpq := (List.append_inj hd hlen).1
  cases p
  cases q
  simp only at hpq
  rw [hpq]

theorem extFold_preserve (hd : List (String × PyVal)) (k : String) :
    ∀ (ps : List (String × Nat)) (acc tbl : List (String × PyVal)),
      List.foldlM (extStep hd) acc ps = some tbl →
      (∀ p ∈ ps, ¬(p.1 ++ " Files" = k)) →
      lookupA tbl k = lookupA acc k := by
  intro ps
  induction ps with
  | nil =>
    intro acc tbl h _
    simp only [List.foldlM_nil] at h
    injection h with h
    rw [h]
  | cons q ps ih =>
    intro acc tbl h hall
    rw [List.foldlM_cons] at h
    cases hstep : extStep hd acc q with
    | none => rw [hstep] at h; simp at h
    | some acc' =>
      rw [hstep] at h
      simp only [Option.bind_eq_bind, Option.some_bind] at h
      have hacc' : lookupA acc' k = lookupA acc k := by
        unfold extStep at hstep
        cases hv : pyAdd (.int (q.2 : Int)) (getD hd (q.1 ++ " Files")) with
        | none => rw [hv] at hstep; simp at hstep
        | some v =>
          rw [hv] at hstep
          simp only [Option.map_some', Option.some.injEq] at hstep
          rw [← hstep]
          exact lookupA_updateAssoc_ne _ _ _ _ (hall q (by simp))
      rw [ih acc' tbl h (fun p hp => hall p (by simp [hp])), hacc']

theorem extFold_mem (hd : List (String × PyVal)) :
    ∀ (ps : List (String × Nat)) (acc tbl : List (String × PyVal)),
      List.foldlM (extStep hd) acc ps = some tbl →
      (ps.map Prod.fst).Nodup →
      ∀ p ∈ ps, lookupA tbl (p.1 ++ " Files") =
        pyAdd (.int (p.2 : Int)) (getD hd (p.1 ++ " Files")) := by
  intro ps
  induction ps with
  | nil =>
    intro acc tbl _ _ p hp
    simp at hp
  | cons q ps ih =>
    intro acc tbl h hnd p hp
    rw [List.foldlM_cons] at h
    cases hstep : extStep hd acc q with
    | none => rw [hstep] at h; simp at h
    | some acc' =>
      rw [hstep] at h
      simp only [Option.bind_eq_bind, Option.some_bind] at h
      have hnd' : (ps.map Prod.fst).Nodup := by
        rw [List.map_cons, List.nodup_cons] at hnd
        exact hnd.2
      rcases List.mem_cons.mp hp with hpq | hmem
      · subst hpq
        have hnotin : p.1 ∉ ps.map Prod.fst := by
          rw [List.map_cons, List.nodup_cons] at hnd
          exact hnd.1
        have hkeys : ∀ p' ∈ ps, ¬(p'.1 ++ " Files" = p.1 ++ " Files") := by
          intro p' hp' heq
          have hp1 : p'.1 = p.1 := append_files_inj _ _ heq
          exact hnotin (hp1 ▸ List.mem_map_of_mem Prod.fst hp')
        rw [extFold_preserve hd _ ps acc' tbl h hkeys]
        unfold extStep at hstep
        cases hv : pyAdd (.int (p.2 : Int)) (getD hd (p.1 ++ " Files")) with
        | none => rw [hv] at hstep; simp at hstep
        | some v =>
          rw [hv] at hstep
          simp only [Option.map_some', Option.some.injEq] at hstep
          rw [← hstep, lookupA_updateAssoc_self]
      · exact ih acc' tbl h hnd' p hmem

/-- C6: the historical-report parse skips the first (header) row and every
two-column row whose stripped key or value starts `===`; other-width rows
are ignored; a two-column row's value is converted to an integer when it
contains `LOC` (the `" LOC"` text removed first), else to a float when the
key contains `Time`, else to an integer when purely numeric, else kept as a
string, and recorded under its key; and every metric of the written
historical table — the three totals and each per-extension `"<ext> Files"`
row — equals the current run's value plus the parsed historical value,
missing history defaulting to 0. -/
theorem C6_report_parse_and_merge
    (rows : List (List String)) (hd tbl : List (String × PyVal))
    (stats : ProcessingStats) (tmin : ℚ)
    (hparse : parseHistorical rows = some hd)
    (hbuild : buildHistoricalTotals stats tmin hd = some tbl)
    (hnodup : (stats.loc_by_type.map Prod.fst).Nodup) :
    (∀ (r r' : List String) (rest : List (List String)),
        parseHistorical (r :: rest) = parseHistorical (r' :: rest)) ∧
    (∀ (acc : List (String × PyVal)) (k v : String),
        (pyStartsWithStr (pyStripS k) "===" || pyStartsWithStr (pyStripS v) "===") = true →
        parseRow acc [k, v] = some acc) ∧
    (∀ (acc : List (String × PyVal)) (row : List String), row.length ≠ 2 →
        parseRow acc row = some acc) ∧
    (∀ k v : String, listContains v.data "LOC".data = true →
        convertValue k v = (pyInt (pyReplaceEmpty v " LOC")).map PyVal.int) ∧
    (∀ k v : String, listContains v.data "LOC".data = false →
        listContains k.data "Time".data = true →
        convertValue k v = (pyFloat v).map PyVal.float) ∧
    (∀ k v : String, listContains v.data "LOC".data = false →
        listContains k.data "Time".data = false → pyIsDigitS v = true →
        convertValue k v = some (PyVal.int (digitsToNat v.data))) ∧
    (∀ k v : String, listContains v.data "LOC".data = false →
        listContains k.data "Time".data = false → pyIsDigitS v = false →
        convertValue k v = some (PyVal.str v)) ∧
    (∀ (acc : List (String × PyVal)) (k v : String) (pv : PyVal),
        (pyStartsWithStr (pyStripS k) "===" || pyStartsWithStr (pyStripS v) "===") = false →
        convertValue (pyStripS k) (pyStripS v) = some pv →
        parseRow acc [k, v] = some (updateAssoc acc (pyStripS k) pv)) ∧
    (∀ t : ℚ, generate_final_report stats t (some rows) =
        (buildHistoricalTotals stats (pyRound2 (t / 60)) hd).map
          (fun tb => (last_run_data stats (pyRound2 (t / 60)), tb))) ∧
    lookupA tbl "Total Files Modified" =
      pyAdd (.int (stats.total_files : Int)) (getD hd "Total Files Modified") ∧
    lookupA tbl "Total LOC Converted" =
      pyAdd (.int (stats.total_loc : Int)) (getD hd "Total LOC Converted") ∧
    lookupA tbl "Total Time (minutes)" =
      pyAdd (.float tmin) (getD hd "Total Time (minutes)") ∧
    (∀ p ∈ stats.loc_by_type, lookupA tbl (p.1 ++ " Files") =
        pyAdd (.int (p.2 : Int)) (getD hd (p.1 ++ " Files"))) := by
  have hA : ∀ (r r' : List String) (rest : List (List String)),
      parseHistorical (r :: rest) = parseHistorical (r' :: rest) := by
    intro r r' rest
    rfl
  have hB : ∀ (acc : List (String × PyVal)) (k v : String),
      (pyStartsWithStr (pyStripS k) "===" || pyStartsWithStr (pyStripS v) "===") = true →
      parseRow acc [k, v] = some acc := by
    intro acc k v hcond
    simp [parseRow, hcond]
  have hC : ∀ (acc : List (String × PyVal)) (row : List String), row.length ≠ 2 →
      parseRow acc row = some acc := by
    intro acc row hlen
    match row with
    | [] => rfl
    | [a] => rfl
    | [a, b] => exact absurd rfl hlen
    | a :: b :: c :: t => rfl
  have hD : ∀ k v : String, listContains v.data "LOC".data = true →
      convertValue k v = (pyInt (pyReplaceEmpty v " LOC")).map PyVal.int := by
    intro k v h
    simp [convertValue, h]
  have hE : ∀ k v : String, listContains v.data "LOC".data = false →
      listContains k.data "Time".data = true →
      convertValue k v = (pyFloat v).map PyVal.float := by
    intro k v h1 h2
    simp [convertValue, h1, h2]
  have hF : ∀ k v : String, listContains v.data "LOC".data = false →
      listContains k.data "Time".data = false → pyIsDigitS v = true →
      convertValue k v = some (PyVal.int (digitsToNat v.data)) := by
    intro k v h1 h2 h3
    simp [convertValue, h1, h2, h3]
  have hG : ∀ k v : String, listContains v.data "LOC".data = false →
      listContains k.data "Time".data = false → pyIsDigitS v = false →
      convertValue k v = some (PyVal.str v) := by
    intro k v h1 h2 h3
    simp [convertValue, h1, h2, h3]
  have hH : ∀ (acc : List (String × PyVal)) (k v : String) (pv : PyVal),
      (pyStartsWithStr (pyStripS k) "===" || pyStartsWithStr (pyStripS v) "===") = false →
      convertValue (pyStripS k) (pyStripS v) = some pv →
      parseRow acc [k, v] = some (updateAssoc acc (pyStripS k) pv) := by
    intro acc k v pv hcond hconv
    simp [parseRow, hcond, hconv]
  have hI : ∀ t : ℚ, generate_final_report stats t (some rows) =
      (buildHistoricalTotals stats (pyRound2 (t / 60)) hd).map
        (fun tb => (last_run_data stats (pyRound2 (t / 60)), tb)) := by
    intro t
    simp only [generate_final_report]
    rw [hparse]
    simp only [Option.bind_eq_bind, Option.some_bind]
    cases hb : buildHistoricalTotals stats (pyRound2 (t / 60)) hd with
    | none => rfl
    | some tb => rfl
  -- dissect the successful build
  unfold buildHistoricalTotals at hbuild
  cases ha : pyAdd (.int (stats.total_files : Int)) (getD hd "Total Files Modified") with
  | none => rw [ha] at hbuild; simp at hbuild
  | some a =>
  rw [ha] at hbuild
  cases hb : pyAdd (.int (stats.total_loc : Int)) (getD hd "Total LOC Converted") with
  | none => rw [hb] at hbuild; simp at hbuild
  | some b =>
  rw [hb] at hbuild
  cases hc : pyAdd (.float tmin) (getD hd "Total Time (minutes)") with
  | none => rw [hc] at hbuild; simp at hbuild
  | some c =>
  rw [hc] at hbuild
  simp only [Option.bind_eq_bind, Option.some_bind] at hbuild
  have hne1 : ∀ p ∈ stats.loc_by_type,
      ¬(p.1 ++ " Files" = "Total Files Modified") := by
    intro p _ heq
    have := ends_with_files p.1 _ heq
    exact absurd this (by decide)
  have hne2 : ∀ p ∈ stats.loc_by_type,
      ¬(p.1 ++ " Files" = "Total LOC Converted") := by
    intro p _ heq
    have := ends_with_files p.1 _ heq
    exact absurd this (by decide)
  have hne3 : ∀ p ∈ stats.loc_by_type,
      ¬(p.1 ++ " Files" = "Total Time (minutes)") := by
    intro p _ heq
    have := ends_with_files p.1 _ heq
    exact absurd this (by decide)
  have hJ : lookupA tbl "Total Files Modified" = some a := by
    rw [extFold_preserve hd _ stats.loc_by_type _ tbl hbuild hne1]
    rw [lookupA_cons, if_pos rfl]
  have hK : lookupA tbl "Total LOC Converted" = some b := by
    rw [extFold_preserve hd _ stats.loc_by_type _ tbl hbuild hne2]
    rw [lookupA_cons, if_neg (by decide), lookupA_cons, if_pos rfl]
  have hL : lookupA tbl "Total Time (minutes)" = some c := by
    rw [extFold_preserve hd _ stats.loc_by_type _ tbl hbuild hne3]
    rw [lookupA_cons, if_neg (by decide), lookupA_cons, if_neg (by decide),
      lookupA_cons, if_pos rfl]
  refine ⟨hA, hB, hC, hD, hE, hF, hG, hH, hI, ?_, ?_, ?_, ?_⟩
  · rw [hJ]
  · rw [hK]
  · rw [hL]
  · exact extFold_mem hd stats.loc_by_type _ tbl hbuild hnodup

theorem C6_report_parse_and_merge_witness :
    lookupA [("Total Files Modified", PyVal.int 7), ("Total LOC Converted", PyVal.int 30),
        ("Total Time (minutes)", PyVal.float ((0 : ℚ) + ((0 : Int) : ℚ))),
        (".py Files", PyVal.int 30)] "Total Files Modified" =
      pyAdd (PyVal.int ((2 : Nat) : Int))
        (getD [("Total Files Modified", PyVal.int 5)] "Total Files Modified") := by
  exact (C6_report_parse_and_merge
    [["=== Last Run ==="], ["Total Files Modified", "5"]]
    [("Total Files Modified", PyVal.int 5)]
    [("Total Files Modified", PyVal.int 7), ("Total LOC Converted", PyVal.int 30),
     ("Total Time (minutes)", PyVal.float ((0 : ℚ) + ((0 : Int) : ℚ))),
     (".py Files", PyVal.int 30)]
    ⟨2, 30, [(".py", 30)], [".py"]⟩ 0 (by decide) rfl
    (by decide)).2.2.2.2.2.2.2.2.2.1
